import Mathlib

/-!
Verification of the Bezier curve engine (`bezier.py`) of the
OptimalBezierTrajectoryGeneration repository.

Control points are embedded as lists of rationals (one list per spatial
dimension); the floating-point arithmetic of the source is modelled by exact
rational arithmetic.  Every definition below is translated directly from the
named Python function in `bezier.py`.  Loops of the form
`while newCpts.size > 1` run exactly `len(cpts) - 1` times, so they are
embedded structurally with that iteration count.
-/

namespace BezierSpec

/-- One de Casteljau interpolation sweep: the inner `for i` loop of
`deCasteljauCurve` / `deCasteljauSplit` building `cptsTemp` from `newCpts`,
`cptsTemp[i] = (1-t)*newCpts[i] + t*newCpts[i+1]`. -/
def reduceStep (t : ℚ) (l : List ℚ) : List ℚ :=
  List.zipWith (fun a b => (1 - t) * a + t * b) l l.tail

theorem reduceStep_length (t : ℚ) (l : List ℚ) :
    (reduceStep t l).length = l.length - 1 := by
  simp [reduceStep, List.length_zipWith]

/-- The `while newCpts.size > 1` loop of `deCasteljauCurve` in `bezier.py`,
with the iteration count (`len(cpts) - 1` for the real input) made explicit. -/
def deCastIter (t : ℚ) : ℕ → List ℚ → ℚ
  | 0, l => l.headD 0
  | n + 1, l => deCastIter t n (reduceStep t l)

/-- Evaluation of a 1-D Bezier curve at one (already `tf`-normalised)
parameter by repeated `reduceStep`, as `deCasteljauCurve` does per sample. -/
def deCast (t : ℚ) (l : List ℚ) : ℚ :=
  deCastIter t (l.length - 1) l

/-- The function `deCasteljauCurve(cpts, tau, tf)` of `bezier.py`: divides the
sample parameters by `tf` and evaluates at each of them. -/
def deCasteljauCurve (cpts : List ℚ) (tau : List ℚ) (tf : ℚ) : List ℚ :=
  tau.map (fun s => deCast (s / tf) cpts)

/-- The `while newCpts.size > 1` loop of `deCasteljauSplit` in `bezier.py`:
each iteration records the FIRST point of the current level into `cptsLeft`
and the LAST point of the current level into `cptsRight`, then reduces the
level; after the loop the single remaining point is written to the last slot
of both output arrays (`cptsLeft[-1] = cptsRight[-1] = newCpts[0]`). -/
def splitIter (t : ℚ) : ℕ → List ℚ → List ℚ × List ℚ
  | 0, l => ([l.headD 0], [l.headD 0])
  | n + 1, l =>
    let p := splitIter t n (reduceStep t l)
    (l.headD 0 :: p.1, l.getLastD 0 :: p.2)

/-- The function `deCasteljauSplit(cpts, tDiv, tf)` of `bezier.py`. -/
def deCasteljauSplit (cpts : List ℚ) (tDiv tf : ℚ) : List ℚ × List ℚ :=
  splitIter (tDiv / tf) (cpts.length - 1) cpts

/-- Claim C1 counterexample: splitting the degree-1 curve with control points
`[0, 1]` at `tDiv = 1/2` (with `tf = 1`) yields `leftCpts = [0, 1/2]` and
`rightCpts = [1, 1/2]`; the last left control point `1/2` differs from the
first right control point `1`, so the claimed invariant
`leftCpts[-1] == rightCpts[0]` fails on the code. -/
theorem deCasteljauSplit_left_last_ne_right_head :
    (deCasteljauSplit [0, 1] (1 / 2) 1).1 = [0, 1 / 2] ∧
      (deCasteljauSplit [0, 1] (1 / 2) 1).2 = [1, 1 / 2] ∧
      ((deCasteljauSplit [0, 1] (1 / 2) 1).1.getLastD 0 ≠
        (deCasteljauSplit [0, 1] (1 / 2) 1).2.headD 0) := by
  refine ⟨?_, ?_, ?_⟩ <;> norm_num [deCasteljauSplit, splitIter, reduceStep]

theorem splitIter_fst_ne_nil (t : ℚ) (n : ℕ) (l : List ℚ) :
    (splitIter t n l).1 ≠ [] := by
  cases n <;> simp [splitIter]

theorem splitIter_snd_ne_nil (t : ℚ) (n : ℕ) (l : List ℚ) :
    (splitIter t n l).2 ≠ [] := by
  cases n <;> simp [splitIter]

theorem getLastD_irrel {α : Type} (l : List α) (h : l ≠ []) (d₁ d₂ : α) :
    l.getLastD d₁ = l.getLastD d₂ := by
  cases l with
  | nil => exact absurd rfl h
  | cons a t => rw [List.getLastD_cons, List.getLastD_cons]

theorem splitIter_last_eq (t : ℚ) (n : ℕ) (l : List ℚ) :
    (splitIter t n l).1.getLastD 0 = (splitIter t n l).2.getLastD 0 := by
  induction n generalizing l with
  | zero => simp [splitIter]
  | succ n ih =>
    simp only [splitIter]
    rw [List.getLastD_cons, List.getLastD_cons]
    calc (splitIter t n (reduceStep t l)).1.getLastD (l.headD 0)
        = (splitIter t n (reduceStep t l)).1.getLastD 0 :=
          getLastD_irrel _ (splitIter_fst_ne_nil t n _) _ _
      _ = (splitIter t n (reduceStep t l)).2.getLastD 0 := ih (reduceStep t l)
      _ = (splitIter t n (reduceStep t l)).2.getLastD (l.getLastD 0) :=
          getLastD_irrel _ (splitIter_snd_ne_nil t n _) _ _

/-- Claim C1 (amended): the de Casteljau split emits the right child's control
points in reversed order, so the continuity invariant satisfied by the code is
`leftCpts[-1] == rightCpts[-1]`: the LAST control point of the left child
equals the LAST control point of the right child (both are the single point
remaining after the final sweep, i.e. the curve value at the split point). -/
theorem deCasteljauSplit_left_last_eq_right_last (cpts : List ℚ)
    (tDiv tf : ℚ) :
    (deCasteljauSplit cpts tDiv tf).1.getLastD 0 =
      (deCasteljauSplit cpts tDiv tf).2.getLastD 0 :=
  splitIter_last_eq (tDiv / tf) (cpts.length - 1) cpts

/-! ### Claim C2: `Bezier.div` -/

/-- Checked 2-D array read, modelling `ndarray[i, j]`: an out-of-bounds index
raises `IndexError`, modelled as `Except.error ()`. -/
def readEntry (m : List (List ℚ)) (i j : ℕ) : Except Unit ℚ :=
  match m.get? i with
  | none => .error ()
  | some row =>
    match row.get? j with
    | none => .error ()
    | some x => .ok x

/-- Left-to-right effectful map over a list, short-circuiting on the first
error: the order in which a Python `for` loop visits its indices. -/
def mapE {α β : Type} (f : α → Except Unit β) : List α → Except Unit (List β)
  | [] => .ok []
  | x :: xs => do
    let y ← f x
    let ys ← mapE f xs
    pure (y :: ys)

/-- The body of `Bezier.div(self, denominator)` in `bezier.py`, translated
with its actual loop bounds: `for i in range(self.dim+1)` and
`for j in range(self.deg+2)` (both one past the array extent), reading
`self.cpts[i, j]`, special-casing a zero numerator entry, and otherwise
reading `denominator.cpts[i, j]` and dividing. -/
def divCpts (a b : List (List ℚ)) : Except Unit (List (List ℚ)) :=
  let dim := a.length
  let deg := (a.headD []).length - 1
  mapE (fun i =>
    mapE (fun j => do
      let x ← readEntry a i j
      if x = 0 then pure 0
      else do
        let y ← readEntry b i j
        pure (x / y))
    (List.range (deg + 2)))
  (List.range (dim + 1))

theorem mapE_error {α β : Type} (f : α → Except Unit β) (l : List α) (x : α)
    (hx : x ∈ l) (hfx : f x = .error ()) : mapE f l = .error () := by
  induction l with
  | nil => cases hx
  | cons a t ih =>
    simp only [mapE]
    cases hfa : f a with
    | error e => cases e; rfl
    | ok y =>
      rcases List.mem_cons.mp hx with h | h
      · rw [← h, hfx] at hfa; cases hfa
      · rw [ih h]
        rfl

/-- Claim C2 refuted (code bug): for every non-empty numerator control-point
matrix, `Bezier.div` raises `IndexError` instead of returning a
`RationalBezier`: its loops run to `dim+1` and `deg+2`, so the very first row
is read at column index `deg+1`, one past its extent. -/
theorem divCpts_raises (a b : List (List ℚ)) (h : a ≠ []) :
    divCpts a b = .error () := by
  obtain ⟨r, rest, rfl⟩ := List.exists_cons_of_ne_nil h
  simp only [divCpts, List.headD_cons]
  apply mapE_error _ _ 0 (by simp)
  apply mapE_error _ _ ((r.length - 1) + 1) (by simp [List.mem_range])
  have hread : readEntry (r :: rest) 0 (r.length - 1 + 1) = .error () := by
    simp only [readEntry, List.get?_cons_zero]
    rw [List.get?_eq_none.mpr (by omega)]
  rw [hread]
  rfl

/-- Witness: `Bezier.div` applied to the concrete curves with control points
`[[1, 2]]` and `[[1, 1]]` raises (returns the `IndexError` model). -/
theorem divCpts_raises_witness :
    ([[(1 : ℚ), 2]] ≠ []) ∧ divCpts [[1, 2]] [[1, 1]] = .error () :=
  ⟨by simp, divCpts_raises [[1, 2]] [[1, 1]] (by simp)⟩

/-! ### Bernstein form of the de Casteljau evaluator

The paper's Bernstein-basis reading of a control-point list; used to reason
about evaluation for every parameter at once.  `deCast_eq_bernEval` below
proves it agrees with the code's de Casteljau loop. -/

/-- Bernstein-basis value of the 1-D curve with control points `l` at the
normalised parameter `t`. -/
def bernEval (l : List ℚ) (t : ℚ) : ℚ :=
  ∑ i in Finset.range l.length,
    ((l.length - 1).choose i : ℚ) * t ^ i * (1 - t) ^ (l.length - 1 - i) *
      l.getD i 0

theorem reduceStep_getD (t : ℚ) (l : List ℚ) (i : ℕ)
    (hi : i + 1 < l.length) :
    (reduceStep t l).getD i 0 = (1 - t) * l.getD i 0 + t * l.getD (i + 1) 0 := by
  have h1 : i < (reduceStep t l).length := by
    rw [reduceStep_length]; omega
  have h2 : i < l.length := by omega
  have h3 : i < l.tail.length := by
    rw [List.length_tail]; omega
  rw [List.getD_eq_getElem _ _ h1, List.getD_eq_getElem _ _ h2,
    List.getD_eq_getElem _ _ hi]
  simp only [reduceStep]
  rw [List.getElem_zipWith]
  rw [List.getElem_tail]

theorem bernEval_reduceStep (t : ℚ) (l : List ℚ) (h : 2 ≤ l.length) :
    bernEval (reduceStep t l) t = bernEval l t := by
  obtain ⟨n, hn⟩ : ∃ n, l.length = n + 2 := ⟨l.length - 2, by omega⟩
  have hlen : (reduceStep t l).length = n + 1 := by
    rw [reduceStep_length]
    omega
  have hget : ∀ i, i < n + 1 →
      (reduceStep t l).getD i 0 = (1 - t) * l.getD i 0 + t * l.getD (i + 1) 0 := by
    intro i hi
    exact reduceStep_getD t l i (by omega)
  unfold bernEval
  rw [hlen, hn]
  have e1 : n + 2 - 1 = n + 1 := by omega
  have e2 : n + 1 - 1 = n := by omega
  rw [e1, e2]
  have split : ∀ i ∈ Finset.range (n + 1),
      (n.choose i : ℚ) * t ^ i * (1 - t) ^ (n - i) * (reduceStep t l).getD i 0
        = (n.choose i : ℚ) * t ^ i * (1 - t) ^ (n - i + 1) * l.getD i 0
          + (n.choose i : ℚ) * t ^ (i + 1) * (1 - t) ^ (n - i) * l.getD (i + 1) 0 := by
    intro i hi
    rw [hget i (Finset.mem_range.mp hi), pow_succ]
    ring
  rw [Finset.sum_congr rfl split, Finset.sum_add_distrib]
  -- right-hand side: peel the `j = 0` term and apply Pascal's rule
  rw [Finset.sum_range_succ' (fun j =>
    (((n + 1).choose j : ℚ)) * t ^ j * (1 - t) ^ (n + 1 - j) * l.getD j 0) (n + 1)]
  have pascal : ∀ i ∈ Finset.range (n + 1),
      (((n + 1).choose (i + 1) : ℚ)) * t ^ (i + 1) * (1 - t) ^ (n + 1 - (i + 1)) *
          l.getD (i + 1) 0
        = (n.choose i : ℚ) * t ^ (i + 1) * (1 - t) ^ (n - i) * l.getD (i + 1) 0
          + (n.choose (i + 1) : ℚ) * t ^ (i + 1) * (1 - t) ^ (n - i) * l.getD (i + 1) 0 := by
    intro i hi
    rw [Nat.choose_succ_succ, Nat.succ_sub_succ]
    push_cast
    ring
  rw [Finset.sum_congr rfl pascal, Finset.sum_add_distrib]
  -- left first sum: peel its `i = 0` term
  rw [Finset.sum_range_succ' (fun i =>
    (n.choose i : ℚ) * t ^ i * (1 - t) ^ (n - i + 1) * l.getD i 0) n]
  have shift : ∀ i ∈ Finset.range n,
      ((n.choose (i + 1) : ℚ)) * t ^ (i + 1) * (1 - t) ^ (n - (i + 1) + 1) *
          l.getD (i + 1) 0
        = (n.choose (i + 1) : ℚ) * t ^ (i + 1) * (1 - t) ^ (n - i) * l.getD (i + 1) 0 := by
    intro i hi
    have : n - (i + 1) + 1 = n - i := by
      have := Finset.mem_range.mp hi
      omega
    rw [this]
  rw [Finset.sum_congr rfl shift]
  have extend : (∑ i in Finset.range (n + 1),
      (n.choose (i + 1) : ℚ) * t ^ (i + 1) * (1 - t) ^ (n - i) * l.getD (i + 1) 0)
        = ∑ i in Finset.range n,
      (n.choose (i + 1) : ℚ) * t ^ (i + 1) * (1 - t) ^ (n - i) * l.getD (i + 1) 0 := by
    rw [Finset.sum_range_succ, Nat.choose_succ_self]
    simp
  rw [extend]
  simp only [Nat.choose_zero_right, Nat.cast_one, pow_zero, Nat.sub_zero]
  ring

/-- The code's de Casteljau loop computes the Bernstein-basis value: for a
control-point list of length `n + 1`, running `n` interpolation sweeps yields
the Bernstein sum. -/
theorem deCastIter_eq_bernEval (t : ℚ) (n : ℕ) (l : List ℚ)
    (h : l.length = n + 1) : deCastIter t n l = bernEval l t := by
  induction n generalizing l with
  | zero =>
    match l, h with
    | [x], _ => simp [deCastIter, bernEval]
  | succ n ih =>
    have hr : (reduceStep t l).length = n + 1 := by
      rw [reduceStep_length]
      omega
    calc deCastIter t (n + 1) l = deCastIter t n (reduceStep t l) := rfl
      _ = bernEval (reduceStep t l) t := ih (reduceStep t l) hr
      _ = bernEval l t := bernEval_reduceStep t l (by omega)

theorem deCast_eq_bernEval (t : ℚ) (l : List ℚ) (h : l ≠ []) :
    deCast t l = bernEval l t := by
  have : l.length = (l.length - 1) + 1 := by
    cases l with
    | nil => exact absurd rfl h
    | cons a u => simp
  exact deCastIter_eq_bernEval t (l.length - 1) l this

/-! ### Claim C9: `Bezier.elev` / `elevMatrix` -/

/-- Entry `T[j, i]` of the matrix built by `elevMatrix(N, R)` in `bezier.py`:
`binom(N, j) * binom(R, i - j) / binom(N + R, i)`.  Scipy's `binom` yields 0
for a negative lower argument, hence the guard `i < j`. -/
def elevEntry (N R j i : ℕ) : ℚ :=
  if i < j then 0
  else (N.choose j : ℚ) * (R.choose (i - j) : ℚ) / ((N + R).choose i : ℚ)

/-- One dimension of `Bezier.elev(R)`: `np.dot(cpts, elevMat)`, i.e. the
`i`-th elevated control point is `Σ_j cpts[j] * T[j, i]` for
`i < N + R + 1`. -/
def elevCpts (c : List ℚ) (R : ℕ) : List ℚ :=
  (List.range (c.length - 1 + R + 1)).map (fun i =>
    ∑ j in Finset.range (c.length - 1 + 1), c.getD j 0 * elevEntry (c.length - 1) R j i)

/-- `Bezier.elev(R)` of `bezier.py`: elevation applied to every row of the
control-point matrix. -/
def elevCurve (cpts : List (List ℚ)) (R : ℕ) : List (List ℚ) :=
  cpts.map (fun c => elevCpts c R)

theorem rangeMapGetD {α : Type} [Inhabited α] (f : ℕ → α) (n i : ℕ)
    (h : i < n) (d : α) : ((List.range n).map f).getD i d = f i := by
  rw [List.getD_eq_getElem _ _ (by simpa using h)]
  simp

/-- Binomial partition of unity used by degree elevation. -/
theorem bern_partition (t : ℚ) (R : ℕ) :
    ∑ r in Finset.range (R + 1), (R.choose r : ℚ) * t ^ r * (1 - t) ^ (R - r) = 1 := by
  have h := add_pow t (1 - t) R
  have ht : t + (1 - t) = 1 := by ring
  rw [ht, one_pow] at h
  calc ∑ r in Finset.range (R + 1), (R.choose r : ℚ) * t ^ r * (1 - t) ^ (R - r)
      = ∑ r in Finset.range (R + 1), t ^ r * (1 - t) ^ (R - r) * (R.choose r : ℚ) :=
        Finset.sum_congr rfl fun r _ => by ring
    _ = 1 := h.symm

theorem bernEval_elevCpts (c : List ℚ) (R : ℕ) (h : c ≠ []) (t : ℚ) :
    bernEval (elevCpts c R) t = bernEval c t := by
  obtain ⟨N, hN⟩ : ∃ N, c.length = N + 1 := by
    cases c with
    | nil => exact absurd rfl h
    | cons a u => exact ⟨u.length, by simp⟩
  have hNdef : c.length - 1 = N := by omega
  have hLlen : (elevCpts c R).length = N + R + 1 := by
    simp [elevCpts, hNdef]
  unfold bernEval
  rw [hLlen, hN]
  have e1 : N + R + 1 - 1 = N + R := by omega
  have e2 : N + 1 - 1 = N := by omega
  rw [e1, e2]
  have hgetL : ∀ i ∈ Finset.range (N + R + 1),
      ((N + R).choose i : ℚ) * t ^ i * (1 - t) ^ (N + R - i) * (elevCpts c R).getD i 0
        = ∑ j in Finset.range (N + 1),
            ((N + R).choose i : ℚ) * t ^ i * (1 - t) ^ (N + R - i) *
              (c.getD j 0 * elevEntry N R j i) := by
    intro i hi
    unfold elevCpts
    rw [hNdef, rangeMapGetD _ _ i (Finset.mem_range.mp hi) 0, Finset.mul_sum]
  rw [Finset.sum_congr rfl hgetL, Finset.sum_comm]
  refine Finset.sum_congr rfl fun j hj => ?_
  have hjN : j ≤ N := by
    have := Finset.mem_range.mp hj
    omega
  -- drop the vanishing terms with `i < j`
  have hsub : Finset.Ico j (N + R + 1) ⊆ Finset.range (N + R + 1) := by
    intro x hx
    rw [Finset.mem_range]
    exact (Finset.mem_Ico.mp hx).2
  have hzero : ∀ i ∈ Finset.range (N + R + 1), i ∉ Finset.Ico j (N + R + 1) →
      ((N + R).choose i : ℚ) * t ^ i * (1 - t) ^ (N + R - i) *
        (c.getD j 0 * elevEntry N R j i) = 0 := by
    intro i hi hni
    have hij : i < j := by
      rw [Finset.mem_Ico, not_and] at hni
      rw [Finset.mem_range] at hi
      by_contra hcon
      exact (hni (by omega)) hi
    rw [elevEntry, if_pos hij]
    ring
  rw [← Finset.sum_subset hsub hzero, Finset.sum_Ico_eq_sum_range]
  have eIdx : N + R + 1 - j = (N + R - j) + 1 := by omega
  rw [eIdx]
  -- drop the vanishing terms with `r > R`
  have hsub2 : Finset.range (R + 1) ⊆ Finset.range (N + R - j + 1) := by
    intro x hx
    rw [Finset.mem_range] at hx ⊢
    omega
  have hzero2 : ∀ r ∈ Finset.range (N + R - j + 1), r ∉ Finset.range (R + 1) →
      ((N + R).choose (j + r) : ℚ) * t ^ (j + r) * (1 - t) ^ (N + R - (j + r)) *
        (c.getD j 0 * elevEntry N R j (j + r)) = 0 := by
    intro r _ hr
    have hRr : R < r := by
      rw [Finset.mem_range, not_lt] at hr
      omega
    rw [elevEntry, if_neg (by omega)]
    have : j + r - j = r := by omega
    rw [this, Nat.choose_eq_zero_of_lt hRr]
    push_cast
    ring
  rw [← Finset.sum_subset hsub2 hzero2]
  have hterm : ∀ r ∈ Finset.range (R + 1),
      ((N + R).choose (j + r) : ℚ) * t ^ (j + r) * (1 - t) ^ (N + R - (j + r)) *
        (c.getD j 0 * elevEntry N R j (j + r))
        = ((N.choose j : ℚ) * t ^ j * (1 - t) ^ (N - j) * c.getD j 0) *
            ((R.choose r : ℚ) * t ^ r * (1 - t) ^ (R - r)) := by
    intro r hr
    have hrR : r ≤ R := by
      have := Finset.mem_range.mp hr
      omega
    have hpos : 0 < (N + R).choose (j + r) := Nat.choose_pos (by omega)
    have hch : ((N + R).choose (j + r) : ℚ) ≠ 0 := by
      exact_mod_cast hpos.ne'
    rw [elevEntry, if_neg (by omega)]
    have h1 : j + r - j = r := by omega
    have h2 : N + R - (j + r) = (N - j) + (R - r) := by omega
    rw [h1, h2, pow_add, pow_add]
    field_simp
    ring
  rw [Finset.sum_congr rfl hterm, ← Finset.mul_sum, bern_partition, mul_one]

/-- Claim C9: degree elevation is exact.  `Bezier.elev(R)` keeps the number of
rows (the dimension), turns each row of `N + 1` control points into
`N + R + 1` control points (degree `N + R`), and the elevated curve evaluates,
through the code's de Casteljau evaluator, to the same value as the original
at every sample parameter and every final time. -/
theorem elev_degree_dim_and_curve_preserving (cpts : List (List ℚ)) (R : ℕ)
    (h : ∀ c ∈ cpts, c ≠ []) :
    (elevCurve cpts R).length = cpts.length ∧
      ∀ c ∈ cpts, (elevCpts c R).length = c.length + R ∧
        ∀ (tau : List ℚ) (tf : ℚ),
          deCasteljauCurve (elevCpts c R) tau tf = deCasteljauCurve c tau tf := by
  refine ⟨by simp [elevCurve], fun c hc => ⟨?_, ?_⟩⟩
  · have hne := h c hc
    have hpos : 1 ≤ c.length := by
      cases c with
      | nil => exact absurd rfl hne
      | cons a u => simp
    simp [elevCpts]
    omega
  · intro tau tf
    unfold deCasteljauCurve
    refine List.map_congr_left fun s _ => ?_
    have hne := h c hc
    have hLne : elevCpts c R ≠ [] := by
      have : 0 < (elevCpts c R).length := by
        simp [elevCpts]
      exact List.ne_nil_of_length_pos this
    rw [deCast_eq_bernEval _ _ hLne, deCast_eq_bernEval _ _ hne]
    exact bernEval_elevCpts c R hne (s / tf)

/-- Witness for claim C9: elevating the degree-1 curve `[0, 1]` by `R = 1`
gives three control points and the same sampled values. -/
theorem elev_degree_dim_and_curve_preserving_witness :
    (∀ c ∈ [[(0 : ℚ), 1]], c ≠ []) ∧
      ((elevCurve [[(0 : ℚ), 1]] 1).length = 1 ∧
        ∀ c ∈ [[(0 : ℚ), 1]], (elevCpts c 1).length = c.length + 1 ∧
          ∀ (tau : List ℚ) (tf : ℚ),
            deCasteljauCurve (elevCpts c 1) tau tf = deCasteljauCurve c tau tf) := by
  have hh : ∀ c ∈ [[(0 : ℚ), 1]], c ≠ [] := by
    intro c hc
    simp only [List.mem_singleton] at hc
    rw [hc]
    simp
  exact ⟨hh, elev_degree_dim_and_curve_preserving [[(0 : ℚ), 1]] 1 hh⟩

/-! ### Matrix helpers shared by `mul`, `prodMatrix` and `_normSquare` -/

/-- Checked 2-D array write, modelling `ndarray[i, j] = v`: an out-of-bounds
index raises `IndexError`, modelled as `Except.error ()`. -/
def setEntry (m : List (List ℚ)) (i j : ℕ) (v : ℚ) : Except Unit (List (List ℚ)) :=
  match m.get? i with
  | none => .error ()
  | some row =>
    match row.get? j with
    | none => .error ()
    | some _ => .ok (m.set i (row.set j v))

/-- Dot product of two equal-length vectors. -/
def dotL (u v : List ℚ) : ℚ :=
  (List.zipWith (fun a b => a * b) u v).sum

/-- Transpose of a rectangular matrix stored as a list of rows. -/
def transposeM (m : List (List ℚ)) : List (List ℚ) :=
  (List.range (m.headD []).length).map (fun j => m.map (fun row => row.getD j 0))

/-- Matrix product (`np.dot`) of two rectangular matrices. -/
def matMul (A B : List (List ℚ)) : List (List ℚ) :=
  A.map (fun row =>
    (List.range (B.headD []).length).map (fun j =>
      dotL row (B.map (fun br => br.getD j 0))))

/-! ### Claim C4: `Bezier.mul` / `bezProductCoefficients` -/

/-- The function `bezProductCoefficients(m, n)` of `bezier.py` with its actual
write index `coefMat[m*j+k, k]` (the correct row index for the row-major
flattened outer product would be `n*j+k`).  The inner Python range
`range(max(0, k-n), min(m, k)+1)` is `List.range' (k - n) (min m k + 1 - (k - n))`
because natural subtraction already clamps at zero.  Writes are bounds-checked
as numpy's are. -/
def bezProductCoefficients (m n : ℕ) : Except Unit (List (List ℚ)) :=
  let init := List.replicate ((m + 1) * (n + 1)) (List.replicate (m + n + 1) (0 : ℚ))
  (List.range (m + n + 1)).foldlM (fun mat k =>
    (List.range' (k - n) (min m k + 1 - (k - n))).foldlM (fun mat2 j =>
      setEntry mat2 (m * j + k) k
        ((m.choose j : ℚ) * (n.choose (k - j) : ℚ) / ((m + n).choose k : ℚ)))
      mat)
    init

/-- The function `multiplyBezCurves(multiplier, multiplicand, coefMat)` of
`bezier.py`: flattens the outer product of the two control-point rows
(row-major, entry `r` is `a[r div (n+1)] * b[r mod (n+1)]`) and multiplies the
resulting row vector with `coefMat`. -/
def multiplyBezCurves (a b : List ℚ) (coefMat : List (List ℚ)) : List ℚ :=
  let m := a.length - 1
  let n := b.length - 1
  (List.range (m + n + 1)).map (fun k =>
    ∑ r in Finset.range ((m + 1) * (n + 1)),
      a.getD (r / (n + 1)) 0 * b.getD (r % (n + 1)) 0 * (coefMat.getD r []).getD k 0)

/-- The body of `Bezier.mul(self, multiplicand)` in `bezier.py`: dimension
check, cached `bezProductCoefficients(m, n)`, then `multiplyBezCurves` per
dimension. -/
def mulModel (a b : List (List ℚ)) : Except Unit (List (List ℚ)) :=
  if a.length = b.length then do
    let coefMat ← bezProductCoefficients ((a.headD []).length - 1) ((b.headD []).length - 1)
    .ok (List.zipWith (fun ra rb => multiplyBezCurves ra rb coefMat) a b)
  else .error ()

/-- Claim C4 refuted (code bug): for curves of unequal degrees the product is
wrong.  With `a = [[0, 1]]` (degree 1, the curve `t`) and `b = [[1, 0, 0]]`
(degree 2, the curve `(1-t)^2`), `Bezier.mul` returns control points
`[0, 0, 2/3, 0]`, which evaluate to `1/4` at `t = 1/2`, whereas
`a(1/2) * b(1/2) = 1/8`; and for `deg(a) > deg(b)` the coefficient-matrix
construction itself goes out of bounds (raises `IndexError`), e.g. degrees
`(2, 1)`.  The commented-out reference implementation in `Bezier.mul` and the
cited Farouki formula use row index `n*j+k`; the code writes `m*j+k`. -/
theorem mul_wrong_for_unequal_degrees :
    mulModel [[0, 1]] [[1, 0, 0]] = .ok [[0, 0, 2 / 3, 0]] ∧
      deCast (1 / 2) [0, 0, 2 / 3, 0] = 1 / 4 ∧
      deCast (1 / 2) [0, 1] * deCast (1 / 2) [1, 0, 0] = 1 / 8 ∧
      ((1 / 4 : ℚ) ≠ 1 / 8) ∧
      bezProductCoefficients 2 1 = .error () := by
  refine ⟨?_, ?_, ?_, ?_, ?_⟩
  · norm_num [mulModel, bezProductCoefficients, setEntry, multiplyBezCurves,
      List.range', List.range_succ, Finset.sum_range_succ, Nat.choose,
      List.replicate, List.set, Bind.bind, Except.bind, Pure.pure, Except.pure]
  · norm_num [deCast, deCastIter, reduceStep]
  · norm_num [deCast, deCastIter, reduceStep]
  · norm_num
  · norm_num [bezProductCoefficients, setEntry, List.range', List.range_succ,
      Nat.choose, List.replicate, List.set, Bind.bind, Except.bind, Pure.pure, Except.pure]

/-! ### Claim C3: `Bezier.normSquare` / `_normSquare` / `prodMatrix` -/

/-- The function `prodMatrix(N)` of `bezier.py`: a `(2N+1) × (N+1)²` matrix
with `T[j, N*i+j] = binom(N,i) * binom(N,j-i) / binom(2N,j)` for
`i ∈ range(max(0, j-N), min(N, j)+1)`, guarded by the code's own
`if N >= i and N >= j-i and 2*N >= j and j-i >= 0` check (the `j-i >= 0`
clause is automatic for natural subtraction).  Writes are bounds-checked as
numpy's are. -/
def prodMatrix (N : ℕ) : Except Unit (List (List ℚ)) :=
  let init := List.replicate (2 * N + 1) (List.replicate ((N + 1) * (N + 1)) (0 : ℚ))
  (List.range (2 * N + 1)).foldlM (fun mat j =>
    (List.range' (j - N) (min N j + 1 - (j - N))).foldlM (fun mat2 i =>
      if N ≥ i ∧ N ≥ j - i ∧ 2 * N ≥ j then
        setEntry mat2 j (N * i + j)
          ((N.choose i : ℚ) * (N.choose (j - i) : ℚ) / ((2 * N).choose j : ℚ))
      else .ok mat2)
      mat)
    init

/-- The function `_normSquare(x, Nveh, Ndim, prodM)` of `bezier.py`.  Note
that the loop body computes `xaug = np.dot(x.T, x)` from the WHOLE matrix `x`
(the per-row version `np.dot(x[i,None].T, x[i,None])` is commented out in the
source), so every row of `xsquare` is identical; the summing matrix `S`
(`S[i, Ndim*i+j] = 1`) then adds those identical rows again. -/
def normSquareAux (x : List (List ℚ)) (Nveh Ndim : ℕ) (prodM : List (List ℚ)) :
    List (List ℚ) :=
  let m := x.length
  let xaug := matMul (transposeM x) x
  let xnew := xaug.flatten
  let xsquare := (List.range m).map (fun _ => prodM.map (fun row => dotL row xnew))
  let S := (List.range Nveh).map (fun i =>
    (List.range (Nveh * Ndim)).map (fun col =>
      if Ndim * i ≤ col ∧ col < Ndim * i + Ndim then (1 : ℚ) else 0))
  matMul S xsquare

/-- `Bezier.normSquare(self)` of `bezier.py`: builds `prodMatrix(self.deg).T`
(then hands `_normSquare` its transpose again, so the two transposes cancel)
and calls `_normSquare(self.cpts, 1, self.dim, prodM)`. -/
def normSquareModel (x : List (List ℚ)) : Except Unit (List (List ℚ)) := do
  let prodM ← prodMatrix ((x.headD []).length - 1)
  .ok (normSquareAux x 1 x.length prodM)

/-- Claim C3 refuted (code bug): for the 2-dimensional degree-0 curve with
control points `[[1], [1]]`, whose squared Euclidean norm is
`1² + 1² = 2` at every parameter, `Bezier.normSquare` returns the constant
curve `[[4]]` (the value `dim · ‖c(t)‖²`), because `_normSquare` computes
`np.dot(x.T, x)` over all dimensions at once inside its per-dimension loop
and the reduction matrix `S` then sums the `dim` identical rows. -/
theorem normSquare_returns_dim_times_normSquare :
    normSquareModel [[1], [1]] = .ok [[4]] ∧
      deCast (1 / 2) [4] = 4 ∧
      deCast (1 / 2) [1] * deCast (1 / 2) [1] + deCast (1 / 2) [1] * deCast (1 / 2) [1] = 2 ∧
      ((4 : ℚ) ≠ 2) := by
  refine ⟨?_, ?_, ?_, ?_⟩
  · norm_num [normSquareModel, prodMatrix, normSquareAux, setEntry, matMul,
      transposeM, dotL, List.range', List.range_succ, Nat.choose,
      List.replicate, List.set, Bind.bind, Except.bind, Pure.pure, Except.pure]
  · norm_num [deCast, deCastIter, reduceStep]
  · norm_num [deCast, deCastIter, reduceStep]
  · norm_num

/-! ### Claim C6: `Bezier.add` / `Bezier.sub` -/

/-- Entries of a numpy 2-D broadcast elementwise operation: axis of extent 1
is repeated, otherwise indexed directly. -/
def broadcastEntries (f : ℚ → ℚ → ℚ) (a b : List (List ℚ)) : List (List ℚ) :=
  (List.range (max a.length b.length)).map (fun i =>
    (List.range (max (a.headD []).length (b.headD []).length)).map (fun j =>
      f ((a.getD (if a.length = 1 then 0 else i) []).getD
          (if (a.headD []).length = 1 then 0 else j) 0)
        ((b.getD (if b.length = 1 then 0 else i) []).getD
          (if (b.headD []).length = 1 then 0 else j) 0)))

/-- Numpy 2-D broadcasting of an elementwise binary operation, as performed by
`self.cpts + other.cpts` / `self.cpts - other.cpts` in `Bezier.add`/`Bezier.sub`
(the methods themselves contain no shape check).  Two 2-D shapes are
compatible when each axis matches or is 1; otherwise numpy raises
`ValueError`, modelled as `Except.error ()`. -/
def npBroadcastOp (f : ℚ → ℚ → ℚ) (a b : List (List ℚ)) :
    Except Unit (List (List ℚ)) :=
  if (a.length = b.length ∨ a.length = 1 ∨ b.length = 1) ∧
      ((a.headD []).length = (b.headD []).length ∨
        (a.headD []).length = 1 ∨ (b.headD []).length = 1) then
    .ok (broadcastEntries f a b)
  else .error ()

/-- `Bezier.add` of `bezier.py`: `newCurve.cpts = self.cpts + other.cpts`. -/
def addModel (a b : List (List ℚ)) : Except Unit (List (List ℚ)) :=
  npBroadcastOp (fun x y => x + y) a b

/-- `Bezier.sub` of `bezier.py`: `newCurve.cpts = self.cpts - other.cpts`. -/
def subModel (a b : List (List ℚ)) : Except Unit (List (List ℚ)) :=
  npBroadcastOp (fun x y => x - y) a b

/-- Claim C6 counterexample: adding (or subtracting) the 1-dimensional
degree-1 curve `[[1, 2]]` and the 3-dimensional degree-1 curve
`[[1, 2], [3, 4], [5, 6]]` does NOT raise: numpy broadcasts the single row
across the three rows and both operations return a 3-dimensional result. -/
theorem add_sub_broadcast_instead_of_raising :
    addModel [[1, 2]] [[1, 2], [3, 4], [5, 6]] = .ok [[2, 4], [4, 6], [6, 8]] ∧
      subModel [[1, 2]] [[1, 2], [3, 4], [5, 6]] = .ok [[0, 0], [-2, -2], [-4, -4]] := by
  refine ⟨?_, ?_⟩ <;>
    norm_num [addModel, subModel, npBroadcastOp, broadcastEntries, List.range_succ]

/-- Claim C6 (amended): `add`/`sub` contain no shape check of their own; they
perform numpy elementwise arithmetic with broadcasting.  A dimension-1 curve
added to a `d`-dimensional curve of the same degree broadcasts (row `i`,
column `j` of the result is `x_j + b_{ij}`) and returns normally; only
non-broadcastable shapes (e.g. both row counts at least 2 and different)
raise numpy's `ValueError`. -/
theorem add_sub_broadcast_behaviour (x : List ℚ) (b : List (List ℚ))
    (hx : x ≠ []) (hb : 2 ≤ b.length)
    (hrect : ∀ row ∈ b, row.length = x.length) :
    (addModel [x] b = .ok (broadcastEntries (fun p q => p + q) [x] b) ∧
      (broadcastEntries (fun p q => p + q) [x] b).length = b.length ∧
      ∀ i j, i < b.length → j < x.length →
        ((broadcastEntries (fun p q => p + q) [x] b).getD i []).getD j 0
          = x.getD j 0 + (b.getD i []).getD j 0) ∧
    (∀ a2 b2 : List (List ℚ), 2 ≤ a2.length → 2 ≤ b2.length →
      a2.length ≠ b2.length →
        addModel a2 b2 = .error () ∧ subModel a2 b2 = .error ()) := by
  have hxlen : 1 ≤ x.length := by
    cases x with
    | nil => exact absurd rfl hx
    | cons a u => simp
  have hhead : b.headD [] ∈ b := by
    cases b with
    | nil => simp at hb
    | cons r rest => simp
  have hc2 : (b.headD []).length = x.length := hrect _ hhead
  refine ⟨⟨?_, ?_, ?_⟩, ?_⟩
  · unfold addModel npBroadcastOp
    rw [if_pos]
    refine ⟨Or.inr (Or.inl (by simp)), Or.inl ?_⟩
    simp only [List.headD_cons]
    exact hc2.symm
  · have : max (1 : ℕ) b.length = b.length := by omega
    simp [broadcastEntries, this]
  · intro i j hi hj
    have hmaxr : max ([x] : List (List ℚ)).length b.length = b.length := by
      simp
      omega
    have hmaxc : max ([x].headD []).length (b.headD []).length = x.length := by
      simp only [List.headD_cons]
      rw [hc2]
      exact max_self _
    unfold broadcastEntries
    rw [hmaxr, hmaxc, rangeMapGetD _ _ i hi, rangeMapGetD _ _ j hj]
    have hr1 : ([x] : List (List ℚ)).length = 1 := by simp
    rw [if_pos hr1]
    have hbne : ¬(b.length = 1) := by omega
    rw [if_neg hbne]
    simp only [List.getD_cons_zero, List.headD_cons]
    by_cases hcx : x.length = 1
    · have hj0 : j = 0 := by omega
      rw [if_pos hcx, if_pos (hc2.trans hcx), hj0]
    · rw [if_neg hcx, if_neg (fun hcon => hcx (hc2.symm.trans hcon))]
  · intro a2 b2 ha2 hb2 hne
    constructor <;>
      · simp only [addModel, subModel, npBroadcastOp]
        rw [if_neg]
        intro hcon
        rcases hcon.1 with h | h | h <;> omega

/-- Witness for the amended claim C6 at the concrete shapes of the
counterexample. -/
theorem add_sub_broadcast_behaviour_witness :
    (([(1 : ℚ), 2] ≠ []) ∧ 2 ≤ ([[(1 : ℚ), 2], [3, 4], [5, 6]] : List (List ℚ)).length ∧
      (∀ row ∈ ([[(1 : ℚ), 2], [3, 4], [5, 6]] : List (List ℚ)),
        row.length = [(1 : ℚ), 2].length)) ∧
    ((addModel [[(1 : ℚ), 2]] [[1, 2], [3, 4], [5, 6]]
        = .ok (broadcastEntries (fun p q => p + q) [[(1 : ℚ), 2]] [[1, 2], [3, 4], [5, 6]]) ∧
      (broadcastEntries (fun p q => p + q) [[(1 : ℚ), 2]] [[1, 2], [3, 4], [5, 6]]).length
        = ([[(1 : ℚ), 2], [3, 4], [5, 6]] : List (List ℚ)).length ∧
      ∀ i j, i < ([[(1 : ℚ), 2], [3, 4], [5, 6]] : List (List ℚ)).length →
        j < [(1 : ℚ), 2].length →
        ((broadcastEntries (fun p q => p + q) [[(1 : ℚ), 2]]
            [[1, 2], [3, 4], [5, 6]]).getD i []).getD j 0
          = [(1 : ℚ), 2].getD j 0
            + (([[(1 : ℚ), 2], [3, 4], [5, 6]] : List (List ℚ)).getD i []).getD j 0) ∧
    (∀ a2 b2 : List (List ℚ), 2 ≤ a2.length → 2 ≤ b2.length →
      a2.length ≠ b2.length →
        addModel a2 b2 = .error () ∧ subModel a2 b2 = .error ())) := by
  have h1 : [(1 : ℚ), 2] ≠ [] := by simp
  have h2 : 2 ≤ ([[(1 : ℚ), 2], [3, 4], [5, 6]] : List (List ℚ)).length := by simp
  have h3 : ∀ row ∈ ([[(1 : ℚ), 2], [3, 4], [5, 6]] : List (List ℚ)),
      row.length = [(1 : ℚ), 2].length := by
    intro row hr
    simp only [List.mem_cons, List.mem_singleton, List.not_mem_nil, or_false] at hr
    rcases hr with h | h | h <;> subst h <;> rfl
  exact ⟨⟨h1, h2, h3⟩, add_sub_broadcast_behaviour [1, 2] [[1, 2], [3, 4], [5, 6]] h1 h2 h3⟩

/-! ### Claims C7 and C10: the `BezierParams` setters and the memoized
sampled curve -/

/-- The mutable state of a `Bezier` object relevant to the `cpts`/`tf`/`tau`
setters and the `curve` property: `_cpts`, `_tf`, `_tau` (`none` models
Python `None`) and the memoized `_curve`. -/
structure BezierState where
  cpts : List (List ℚ)
  tf : ℚ
  tau : Option (List ℚ)
  curveCache : Option (List (List ℚ))

/-- `BezierParams.__init__(cpts, tau, tf)`: stores the fields and leaves the
sample cache `_curve = None`. -/
def mkBezier (cpts : List (List ℚ)) (tau : Option (List ℚ)) (tf : ℚ) :
    BezierState :=
  ⟨cpts, tf, tau, none⟩

/-- The `cpts` setter: `self._curve = None` then store the new matrix. -/
def setCpts (v : List (List ℚ)) (s : BezierState) : BezierState :=
  { s with cpts := v, curveCache := none }

/-- The `tf` setter: `self._tf = float(value); self._tau = None`.  Note that
it does NOT clear `self._curve`. -/
def setTf (v : ℚ) (s : BezierState) : BezierState :=
  { s with tf := v, tau := none }

/-- The `tau` setter: `self._curve = None; self._tf = val[-1];
self._tau = val` (`val[-1]` modelled by `getLastD`; Python raises on an empty
`val`, which the claims do not exercise). -/
def setTau (val : List ℚ) (s : BezierState) : BezierState :=
  { s with curveCache := none, tf := val.getLastD 0, tau := some val }

/-- The grid `np.arange(0, 1.01, 0.01)` installed by the `curve` property when
`_tau is None`: 101 samples `i/100`. -/
def arangeGrid : List ℚ :=
  List.map (fun i : ℕ => (i : ℚ) / 100) (List.range 101)

theorem arangeGrid_length : arangeGrid.length = 101 := by
  rw [arangeGrid, List.length_map, List.length_range]

/-- The samples the `curve` property computes in state `s` (the body of its
`if self._curve is None` branch): one `deCasteljauCurve` row per dimension at
the current `tau` (or the default grid) and the current `tf`. -/
def computedCurve (s : BezierState) : List (List ℚ) :=
  s.cpts.map (fun row =>
    deCasteljauCurve row (match s.tau with | none => arangeGrid | some v => v) s.tf)

/-- The `Bezier.curve` property: installs the default grid when `_tau is
None`, recomputes and memoizes the samples when `_curve is None`, and
otherwise returns the cached array unchanged. -/
def readCurve (s : BezierState) : List (List ℚ) × BezierState :=
  let s1 : BezierState :=
    { s with tau := some (match s.tau with | none => arangeGrid | some v => v) }
  match s1.curveCache with
  | some c => (c, s1)
  | none =>
    let c := computedCurve s1
    (c, { s1 with curveCache := some c })

/-- Claim C7 counterexample: build the 1-D curve `[[0, 1]]` with
`tau = [0, 1/2, 1]`, `tf = 1`; read the sampled curve (caching
`[[0, 1/2, 1]]`); assign `tf = 2`; read again.  The second read returns the
stale cached samples (computed for `tf = 1` at the old 3-point `tau`) instead
of recomputing: it equals the first read, and differs from what recomputation
in the same state (101-point default grid, `tf = 2`) would produce. -/
theorem curve_cache_stale_after_setTf :
    (readCurve (setTf 2 (readCurve (mkBezier [[0, 1]] (some [0, 1 / 2, 1]) 1)).2)).1
        = (readCurve (mkBezier [[0, 1]] (some [0, 1 / 2, 1]) 1)).1 ∧
      (readCurve (setTf 2 (readCurve (mkBezier [[0, 1]] (some [0, 1 / 2, 1]) 1)).2)).1
        ≠ computedCurve
            (readCurve (setTf 2 (readCurve (mkBezier [[0, 1]] (some [0, 1 / 2, 1]) 1)).2)).2 := by
  have hfirst : (readCurve (mkBezier [[0, 1]] (some [0, 1 / 2, 1]) 1)).1
      = [[0, 1 / 2, 1]] := by
    norm_num [readCurve, mkBezier, computedCurve, deCasteljauCurve, deCast,
      deCastIter, reduceStep]
  have hsecond : (readCurve (setTf 2 (readCurve (mkBezier [[0, 1]] (some [0, 1 / 2, 1]) 1)).2)).1
      = [[0, 1 / 2, 1]] := by
    norm_num [readCurve, mkBezier, setTf, computedCurve, deCasteljauCurve,
      deCast, deCastIter, reduceStep]
  have hstate : (readCurve (setTf 2 (readCurve (mkBezier [[0, 1]] (some [0, 1 / 2, 1]) 1)).2)).2
      = ⟨[[0, 1]], 2, some arangeGrid, some [[0, 1 / 2, 1]]⟩ := by
    norm_num [readCurve, mkBezier, setTf, computedCurve, deCasteljauCurve,
      deCast, deCastIter, reduceStep]
  refine ⟨hsecond.trans hfirst.symm, ?_⟩
  intro heq
  rw [hsecond, hstate] at heq
  have h101 : ((computedCurve
      ⟨[[0, 1]], 2, some arangeGrid, some [[0, 1 / 2, 1]]⟩).headD []).length = 101 := by
    simp only [computedCurve, List.map_cons, List.map_nil, List.headD_cons,
      deCasteljauCurve, List.length_map, arangeGrid_length]
  rw [← heq] at h101
  norm_num at h101

/-- Claim C7 (amended): reassigning the control points or `tau` invalidates
the memoized sample array, but reassigning `tf` does not: the `tf` setter
only resets `tau`, leaving the stale `_curve` in place, so the next read
returns the previously cached samples. -/
theorem setter_invalidation_behaviour (s : BezierState) (v : List (List ℚ))
    (w : List ℚ) (q : ℚ) :
    (setCpts v s).curveCache = none ∧
      (setTau w s).curveCache = none ∧
      (setTf q s).curveCache = s.curveCache ∧
      (setTf q s).tau = none :=
  ⟨rfl, rfl, rfl, rfl⟩

theorem getLastD_eq_getLast {α : Type} :
    ∀ (l : List α) (h : l ≠ []) (d : α), l.getLastD d = l.getLast h
  | [a], _, d => rfl
  | a :: b :: t, _, d => by
    rw [List.getLastD_cons, getLastD_eq_getLast (b :: t) (by simp) a]
    exact (List.getLast_cons (by simp)).symm

/-- Claim C10: assigning `curve.tau = val` for a non-empty `val` overwrites
the final time: afterwards `tf` equals `val[-1]` (and the sample cache is
cleared and `tau` stored), regardless of the previous `tf`. -/
theorem tau_setter_overwrites_tf (s : BezierState) (val : List ℚ)
    (h : val ≠ []) :
    (setTau val s).tf = val.getLast h ∧
      (setTau val s).tau = some val ∧
      (setTau val s).curveCache = none := by
  refine ⟨?_, rfl, rfl⟩
  show val.getLastD 0 = val.getLast h
  exact getLastD_eq_getLast val h 0

/-- Witness for claim C10: assigning `tau = [0, 3, 7]` to a curve whose `tf`
was `1` sets `tf = 7`. -/
theorem tau_setter_overwrites_tf_witness :
    ([(0 : ℚ), 3, 7] ≠ []) ∧
      ((setTau [0, 3, 7] (mkBezier [[0, 1]] none 1)).tf
          = ([(0 : ℚ), 3, 7]).getLast (by simp) ∧
        (setTau [0, 3, 7] (mkBezier [[0, 1]] none 1)).tau = some [0, 3, 7] ∧
        (setTau [0, 3, 7] (mkBezier [[0, 1]] none 1)).curveCache = none) :=
  ⟨by simp, tau_setter_overwrites_tf (mkBezier [[0, 1]] none 1) [0, 3, 7] (by simp)⟩

/-! ### Claim C5: `Bezier.min` / `Bezier.max` -/

/-- Python `min(...)` of a non-empty sequence. -/
def listMin : List ℚ → ℚ
  | [] => 0
  | x :: xs => xs.foldl min x

/-- Python `max(...)` of a non-empty sequence. -/
def listMax : List ℚ → ℚ
  | [] => 0
  | x :: xs => xs.foldl max x

/-- `np.argmin`: index of the first occurrence of the minimum. -/
def argminIdx : List ℚ → ℕ
  | [] => 0
  | [_] => 0
  | x :: y :: rest => if x ≤ listMin (y :: rest) then 0 else argminIdx (y :: rest) + 1

/-- `np.argmax`: index of the first occurrence of the maximum. -/
def argmaxIdx : List ℚ → ℕ
  | [] => 0
  | [_] => 0
  | x :: y :: rest => if listMax (y :: rest) ≤ x then 0 else argmaxIdx (y :: rest) + 1

/-- `np.mean` over all entries of a 2-D array. -/
def meanM (x : List (List ℚ)) : ℚ :=
  (x.map List.sum).sum / ((x.map (fun r => r.length)).sum : ℕ)

/-- `Bezier.split(tDiv)`: `deCasteljauSplit(self.cpts[d, :], tDiv, self.tf)`
for every dimension `d`. -/
def splitCurve (cpts : List (List ℚ)) (tDiv tf : ℚ) :
    List (List ℚ) × List (List ℚ) :=
  (cpts.map (fun row => (deCasteljauSplit row tDiv tf).1),
   cpts.map (fun row => (deCasteljauSplit row tDiv tf).2))

/-- The `for _ in range(maxIter)` loop of `Bezier.min`: split at the lowest
control point (`np.argmin(...) / (deg+1.0)`), keep the half with the smaller
minimum, stop when `|newMin - lastMin| < tol`; when the iteration budget is
exhausted the function prints a warning and returns `None`.  `lastMin = none`
models the initial `np.inf` (for which the comparison `|newMin - inf| < tol`
is false). -/
def minLoop (dimIdx : ℕ) (tolS tf : ℚ) :
    List (List ℚ) → Option ℚ → ℕ → Option ℚ
  | _, _, 0 => none
  | cpts, lastMin, fuel + 1 =>
    let row := cpts.getD dimIdx []
    let splitPoint := (argminIdx row : ℚ) / (((row.length : ℚ) - 1) + 1)
    let p := splitCurve cpts splitPoint tf
    let min1 := listMin (p.1.getD dimIdx [])
    let min2 := listMin (p.2.getD dimIdx [])
    let next := if min1 < min2 then p.1 else p.2
    let newMin := if min1 < min2 then min1 else min2
    let conv : Bool :=
      match lastMin with
      | none => false
      | some l => decide (|newMin - l| < tolS)
    if conv then some newMin else minLoop dimIdx tolS tf next (some newMin) fuel

/-- `Bezier.min(dim, tol, maxIter)` of `bezier.py`: scaled tolerance
`|tol * mean(cpts)|`, endpoint shortcuts, then the subdivision loop. -/
def minB (cpts : List (List ℚ)) (dimIdx : ℕ) (tol : ℚ) (maxIter : ℕ)
    (tf : ℚ) : Option ℚ :=
  let row := cpts.getD dimIdx []
  let minVal := listMin row
  let tolS := |tol * meanM cpts|
  if row.headD 0 = minVal then some (row.headD 0)
  else if row.getLastD 0 = minVal then some (row.getLastD 0)
  else minLoop dimIdx tolS tf cpts none maxIter

/-- The condition `np.abs(globMax - newMax) / newMax < tol` of `Bezier.max`
under IEEE semantics mapped to exact arithmetic: `glob = none` models the
initial `np.inf` (the quotient is `-inf` when `newMax < 0`, else `+inf` or
`nan`, so the comparison holds exactly when `newMax < 0`); a zero `newMax`
makes the quotient `+inf` or `nan`, so the comparison is false. -/
def errorLtQ (glob : Option ℚ) (newMax tol : ℚ) : Bool :=
  match glob with
  | none => decide (newMax < 0)
  | some g => if newMax = 0 then false else decide (|g - newMax| / newMax < tol)

/-- `Bezier.max(dim, globMax, tol)` of `bezier.py`.  The function has NO
iteration or depth budget: the fuel argument models Python's finite call
stack, and running out of it is the `RecursionError` the interpreter raises
(`Except.error ()`), not a value the function returns. -/
def maxAux (dimIdx : ℕ) (tol tf : ℚ) :
    List (List ℚ) → Option ℚ → ℕ → Except Unit ℚ
  | _, _, 0 => .error ()
  | cpts, glob, fuel + 1 =>
    let row := cpts.getD dimIdx []
    let mIdx := argmaxIdx row
    let newMax := listMax row
    if errorLtQ glob newMax tol then .ok newMax
    else if mIdx ≠ 0 ∧ mIdx ≠ row.length - 1 then
      let p := splitCurve cpts ((mIdx : ℚ) / ((row.length : ℚ) - 1)) tf
      do
        let m1 ← maxAux dimIdx tol tf p.1 (some newMax) fuel
        let m2 ← maxAux dimIdx tol tf p.2 (some newMax) fuel
        .ok (max m1 m2)
    else .ok newMax

theorem minLoop_zero_tol (dimIdx : ℕ) (tf : ℚ) (fuel : ℕ) :
    ∀ (cpts : List (List ℚ)) (lastMin : Option ℚ),
      minLoop dimIdx 0 tf cpts lastMin fuel = none := by
  induction fuel with
  | zero => intro cpts lastMin; rfl
  | succ fuel ih =>
    intro cpts lastMin
    simp only [minLoop]
    cases lastMin with
    | none => exact ih _ _
    | some l =>
      have hnot : ∀ q : ℚ, ¬(|q - l| < 0) := fun q => not_lt.mpr (abs_nonneg _)
      simp only [hnot, decide_False]
      exact ih _ _

/-- Midpoint de Casteljau split of a quadratic (three control points). -/
theorem splitCurve_half (x y z : ℚ) :
    splitCurve [[x, y, z]] (1 / 2) 1
      = ([[x, (x + y) / 2, (x + 2 * y + z) / 4]],
         [[z, (y + z) / 2, (x + 2 * y + z) / 4]]) := by
  simp only [splitCurve, deCasteljauSplit, splitIter, reduceStep, List.map,
    List.zipWith, List.tail, List.length_cons, List.length_nil, List.headD_cons,
    List.getLastD_cons]
  norm_num
  constructor <;> constructor <;> ring

theorem argmaxIdx_three (a b c : ℚ) (hab : a < b) (hcb : c < b) :
    argmaxIdx [a, b, c] = 1 := by
  have h1 : ¬(listMax [b, c] ≤ a) := by
    simp only [listMax, List.foldl_cons, List.foldl_nil]
    rw [max_eq_left (le_of_lt hcb)]
    exact not_le.mpr hab
  have h2 : listMax [c] ≤ b := by
    simp only [listMax, List.foldl_cons, List.foldl_nil]
    exact le_of_lt hcb
  simp only [argmaxIdx]
  rw [if_neg h1, if_pos h2]

theorem listMax_three (a b c : ℚ) (hab : a ≤ b) (hcb : c ≤ b) :
    listMax [a, b, c] = b := by
  simp only [listMax, List.foldl_cons, List.foldl_nil]
  rw [max_eq_right hab, max_eq_left hcb]

theorem errorLtQ_false_of_pos (glob : Option ℚ) (b : ℚ) (hb : 0 < b) :
    errorLtQ glob b 0 = false := by
  cases glob with
  | none =>
    simp only [errorLtQ, decide_eq_false_iff_not, not_lt]
    exact le_of_lt hb
  | some g =>
    simp only [errorLtQ]
    rw [if_neg hb.ne']
    simp only [decide_eq_false_iff_not, not_lt]
    exact div_nonneg (abs_nonneg _) (le_of_lt hb)

/-- On any quadratic with control points `a < c < b`, `c - a = b - c` and
`a ≥ 0` (for instance `[0, 1, 1/2]`), `Bezier.max` with tolerance `0`
recurses forever: the interior maximum index never reaches the boundary, the
relative-error test never fires, and the right half re-establishes the same
invariant, so the call exceeds EVERY recursion depth. -/
theorem maxAux_diverges (fuel : ℕ) :
    ∀ (a b c : ℚ) (glob : Option ℚ),
      0 ≤ a → a < c → b - c = c - a →
      maxAux 0 0 1 [[a, b, c]] glob fuel = .error () := by
  induction fuel with
  | zero => intro a b c glob h0 hac hbc; rfl
  | succ fuel ih =>
    intro a b c glob h0 hac hbc
    have hcb : c < b := by linarith
    have hab : a < b := by linarith
    have hbpos : 0 < b := by linarith
    have hrow : ([[a, b, c]] : List (List ℚ)).getD 0 [] = [a, b, c] := rfl
    have hlen : ([a, b, c] : List ℚ).length = 3 := rfl
    simp only [maxAux, hrow, hlen,
      argmaxIdx_three a b c hab hcb,
      listMax_three a b c (le_of_lt hab) (le_of_lt hcb),
      errorLtQ_false_of_pos glob b hbpos,
      Bool.false_eq_true, if_false]
    rw [if_pos (by norm_num : (1 : ℕ) ≠ 0 ∧ (1 : ℕ) ≠ 3 - 1)]
    have harg : ((1 : ℕ) : ℚ) / (((3 : ℕ) : ℚ) - 1) = 1 / 2 := by norm_num
    rw [harg, splitCurve_half]
    have hinv : (0 : ℚ) ≤ c ∧ c < (a + 2 * b + c) / 4 ∧
        (b + c) / 2 - (a + 2 * b + c) / 4 = (a + 2 * b + c) / 4 - c := by
      refine ⟨by linarith, by linarith, by linarith⟩
    have h2 := ih c ((b + c) / 2) ((a + 2 * b + c) / 4) (some b)
      hinv.1 hinv.2.1 hinv.2.2
    cases h1 : maxAux 0 0 1 [[a, (a + b) / 2, (a + 2 * b + c) / 4]] (some b) fuel with
    | error e => simp [h1, Bind.bind, Except.bind]
    | ok v => simp [h1, h2, Bind.bind, Except.bind]

/-- Claim C5 counterexample: `Bezier.max` on the curve `[[0, 1, 1/2]]` with
tolerance `0` (the claim quantifies over every tolerance) exceeds Python's
default recursion limit (modelled here as depth 1000) and the model of the
resulting `RecursionError` escapes; no sentinel (`none`-like) value is ever
produced. -/
theorem max_no_sentinel_counterexample :
    maxAux 0 0 1 [[0, 1, 1 / 2]] none 1000 = .error () :=
  maxAux_diverges 1000 0 1 (1 / 2) none (le_refl 0) (by norm_num) (by norm_num)

/-- Claim C5 (amended): `Bezier.min` returns the sentinel `None` when its
`maxIter` budget is exhausted without convergence (shown on the curve
`[[1, -2, 1]]`, whose control-point mean is zero, so the scaled tolerance is
zero and the loop can never converge — `min` returns `None` for every
tolerance and every iteration budget, rather than raising); `Bezier.max`,
however, has no iteration or depth budget at all and never returns a
sentinel: on the curve `[[0, 1, 1/2]]` with tolerance `0` its recursion
exceeds every depth, so in Python a `RecursionError` escapes. -/
theorem min_returns_none_max_recurses_unboundedly :
    (∀ (tol : ℚ) (maxIter : ℕ), minB [[1, -2, 1]] 0 tol maxIter 1 = none) ∧
      (∀ (fuel : ℕ) (glob : Option ℚ),
        maxAux 0 0 1 [[0, 1, 1 / 2]] glob fuel = .error ()) := by
  constructor
  · intro tol maxIter
    have hmean : meanM [[1, -2, 1]] = 0 := by
      norm_num [meanM]
    have hminv : listMin [1, -2, 1] = -2 := by
      norm_num [listMin, List.foldl_cons, List.foldl_nil]
    simp only [minB, List.getD_cons_zero, List.headD_cons, List.getLastD_cons,
      hminv, hmean, mul_zero, abs_zero]
    rw [if_neg (by norm_num), if_neg (by norm_num)]
    exact minLoop_zero_tol 0 1 maxIter _ _
  · intro fuel glob
    exact maxAux_diverges fuel 0 1 (1 / 2) glob (le_refl 0) (by norm_num) (by norm_num)

/-! ### Claim C8: `_minDist` / `Bezier.minDist`

The Euclidean endpoint norm `_norm` (a floating-point square root, which
leaves exact rational arithmetic) and the external GJK lower-bound oracle
(`from gjk.gjk import gjk`, not part of this repository) are abstracted as
parameters `nrm` and `g`; the claim concerns only the recursion control of
`_minDist`, which touches them solely through the values they return, and
both are nonnegative (a norm and a distance lower bound). -/

/-- Pointwise difference of two 2-D points, as in `c1[:, 0] - c2[:, 0]`. -/
def diff2 (p q : ℚ × ℚ) : ℚ × ℚ :=
  (p.1 - q.1, p.2 - q.2)

/-- First column of a 2-row control-point matrix. -/
def colFirst (c : List (List ℚ)) : ℚ × ℚ :=
  ((c.getD 0 []).headD 0, (c.getD 1 []).headD 0)

/-- Last column of a 2-row control-point matrix. -/
def colLast (c : List (List ℚ)) : ℚ × ℚ :=
  ((c.getD 0 []).getLastD 0, (c.getD 1 []).getLastD 0)

/-- `_upperbound(c1, c2)` of `bezier.py`: the minimum of the four endpoint
distances. -/
def upperB (nrm : ℚ × ℚ → ℚ) (c1 c2 : List (List ℚ)) : ℚ :=
  listMin [nrm (diff2 (colFirst c1) (colFirst c2)),
           nrm (diff2 (colFirst c1) (colLast c2)),
           nrm (diff2 (colLast c1) (colFirst c2)),
           nrm (diff2 (colLast c1) (colLast c2))]

/-- `_minDist(c1, c2, cnt, alpha, eps)` of `bezier.py`: increment `cnt` and
return the sentinel `-1` beyond depth 10; otherwise take the endpoint upper
bound and the oracle lower bound, update `alpha` (`none` models the initial
`np.inf`, against which `ub <= alpha` always holds), prune when
`lb >= alpha*(1-eps)`, and otherwise split both curves at `0.5` and fold the
four cross-pair recursions through `min`, threading the shrinking `alpha`. -/
def minDistAux (nrm : ℚ × ℚ → ℚ) (g : List (List ℚ) → List (List ℚ) → ℚ)
    (tf1 tf2 eps : ℚ) (c1 c2 : List (List ℚ)) (cnt : ℕ) (alpha : Option ℚ) : ℚ :=
  if h : cnt + 1 > 10 then -1
  else
    let ub := upperB nrm c1 c2
    let lb := g c1 c2
    let a1 : ℚ :=
      match alpha with
      | none => ub
      | some a => if ub ≤ a then ub else a
    if lb ≥ a1 * (1 - eps) then a1
    else
      let p1 := splitCurve c1 (1 / 2) tf1
      let p2 := splitCurve c2 (1 / 2) tf2
      let a2 := min a1 (minDistAux nrm g tf1 tf2 eps p1.1 p2.1 (cnt + 1) (some a1))
      let a3 := min a2 (minDistAux nrm g tf1 tf2 eps p1.1 p2.2 (cnt + 1) (some a2))
      let a4 := min a3 (minDistAux nrm g tf1 tf2 eps p1.2 p2.1 (cnt + 1) (some a3))
      let a5 := min a4 (minDistAux nrm g tf1 tf2 eps p1.2 p2.2 (cnt + 1) (some a4))
      a5
termination_by 11 - cnt
decreasing_by
  all_goals omega

theorem upperB_nonneg (nrm : ℚ × ℚ → ℚ) (hn : ∀ v, 0 ≤ nrm v)
    (c1 c2 : List (List ℚ)) : 0 ≤ upperB nrm c1 c2 := by
  simp only [upperB, listMin, List.foldl_cons, List.foldl_nil]
  have h1 := hn (diff2 (colFirst c1) (colFirst c2))
  have h2 := hn (diff2 (colFirst c1) (colLast c2))
  have h3 := hn (diff2 (colLast c1) (colFirst c2))
  have h4 := hn (diff2 (colLast c1) (colLast c2))
  exact le_min (le_min (le_min h1 h2) h3) h4

theorem minDistAux_cap (nrm : ℚ × ℚ → ℚ) (g : List (List ℚ) → List (List ℚ) → ℚ)
    (tf1 tf2 eps : ℚ) (c1 c2 : List (List ℚ)) (cnt : ℕ) (alpha : Option ℚ)
    (hcnt : 10 ≤ cnt) :
    minDistAux nrm g tf1 tf2 eps c1 c2 cnt alpha = -1 := by
  unfold minDistAux
  rw [dif_pos (by omega)]

theorem minDistAux_absorb (nrm : ℚ × ℚ → ℚ)
    (g : List (List ℚ) → List (List ℚ) → ℚ) (tf1 tf2 eps : ℚ)
    (hn : ∀ v, 0 ≤ nrm v) (hg : ∀ p q, 0 ≤ g p q) (heps : eps ≤ 1)
    (c1 c2 : List (List ℚ)) (cnt : ℕ) :
    minDistAux nrm g tf1 tf2 eps c1 c2 cnt (some (-1)) = -1 := by
  unfold minDistAux
  by_cases h : cnt + 1 > 10
  · rw [dif_pos h]
  · rw [dif_neg h]
    simp only [ge_iff_le]
    have hub : ¬(upperB nrm c1 c2 ≤ -1) := by
      have := upperB_nonneg nrm hn c1 c2
      linarith
    rw [if_neg hub]
    rw [if_pos (by nlinarith [hg c1 c2])]

theorem minDistAux_ge (nrm : ℚ × ℚ → ℚ)
    (g : List (List ℚ) → List (List ℚ) → ℚ) (tf1 tf2 eps : ℚ)
    (hn : ∀ v, 0 ≤ nrm v) (hg : ∀ p q, 0 ≤ g p q) (heps : eps ≤ 1) :
    ∀ (k cnt : ℕ), 11 - cnt ≤ k →
      ∀ (c1 c2 : List (List ℚ)) (alpha : Option ℚ),
        (alpha = none ∨ ∃ a, alpha = some a ∧ -1 ≤ a) →
        -1 ≤ minDistAux nrm g tf1 tf2 eps c1 c2 cnt alpha := by
  intro k
  induction k with
  | zero =>
    intro cnt hcnt c1 c2 alpha halpha
    rw [minDistAux_cap nrm g tf1 tf2 eps c1 c2 cnt alpha (by omega)]
  | succ k ihk =>
    intro cnt hcnt c1 c2 alpha halpha
    unfold minDistAux
    by_cases h : cnt + 1 > 10
    · rw [dif_pos h]
    · rw [dif_neg h]
      simp only [ge_iff_le]
      have hub : (0 : ℚ) ≤ upperB nrm c1 c2 := upperB_nonneg nrm hn c1 c2
      have ha1 : -1 ≤ (match alpha with
          | none => upperB nrm c1 c2
          | some a => if upperB nrm c1 c2 ≤ a then upperB nrm c1 c2 else a) := by
        rcases halpha with h0 | ⟨a, ha, hge⟩
        · subst h0
          exact le_trans (by norm_num) hub
        · subst ha
          show -1 ≤ (if upperB nrm c1 c2 ≤ a then upperB nrm c1 c2 else a)
          by_cases hle : upperB nrm c1 c2 ≤ a
          · rw [if_pos hle]
            linarith
          · rw [if_neg hle]
            exact hge
      generalize hA : (match alpha with
          | none => upperB nrm c1 c2
          | some a => if upperB nrm c1 c2 ≤ a then upperB nrm c1 c2 else a) = A
      rw [hA] at ha1
      have hrec : ∀ (d1 d2 : List (List ℚ)) (b : ℚ), -1 ≤ b →
          -1 ≤ minDistAux nrm g tf1 tf2 eps d1 d2 (cnt + 1) (some b) := by
        intro d1 d2 b hb
        exact ihk (cnt + 1) (by omega) d1 d2 (some b) (Or.inr ⟨b, rfl, hb⟩)
      by_cases hp : A * (1 - eps) ≤ g c1 c2
      · rw [if_pos hp]
        exact ha1
      · rw [if_neg hp]
        have g2 : -1 ≤ min A (minDistAux nrm g tf1 tf2 eps
            (splitCurve c1 (1 / 2) tf1).1 (splitCurve c2 (1 / 2) tf2).1
            (cnt + 1) (some A)) :=
          le_min ha1 (hrec _ _ A ha1)
        have g3 := le_min g2 (hrec (splitCurve c1 (1 / 2) tf1).1
          (splitCurve c2 (1 / 2) tf2).2 _ g2)
        have g4 := le_min g3 (hrec (splitCurve c1 (1 / 2) tf1).2
          (splitCurve c2 (1 / 2) tf2).1 _ g3)
        exact le_min g4 (hrec (splitCurve c1 (1 / 2) tf1).2
          (splitCurve c2 (1 / 2) tf2).2 _ g4)

/-- Claim C8: `_minDist` enforces the hard recursion-depth cap of 10 levels
and the sentinel `-1` propagates to the caller's final result, for every
nonnegative endpoint norm and every nonnegative oracle.  Conjuncts: (1) a
call entered at depth 10 or deeper immediately returns the sentinel `-1`;
(2) once a child has returned `-1` and the parent has folded it into `alpha`
(so `alpha = -1`), every subsequent sibling call returns `-1` unchanged, so
`-1` reaches the top; (3) every result is at least `-1`, so folding a `-1`
through the `min` chain indeed yields `-1` as the final result. -/
theorem minDist_depth_cap_and_sentinel_propagation (nrm : ℚ × ℚ → ℚ)
    (g : List (List ℚ) → List (List ℚ) → ℚ) (tf1 tf2 eps : ℚ)
    (hn : ∀ v, 0 ≤ nrm v) (hg : ∀ p q, 0 ≤ g p q) (heps : eps ≤ 1) :
    (∀ (c1 c2 : List (List ℚ)) (cnt : ℕ) (alpha : Option ℚ), 10 ≤ cnt →
        minDistAux nrm g tf1 tf2 eps c1 c2 cnt alpha = -1) ∧
      (∀ (c1 c2 : List (List ℚ)) (cnt : ℕ),
        minDistAux nrm g tf1 tf2 eps c1 c2 cnt (some (-1)) = -1) ∧
      (∀ (c1 c2 : List (List ℚ)) (cnt : ℕ) (alpha : Option ℚ),
        (alpha = none ∨ ∃ a, alpha = some a ∧ -1 ≤ a) →
        -1 ≤ minDistAux nrm g tf1 tf2 eps c1 c2 cnt alpha) :=
  ⟨fun c1 c2 cnt alpha hcnt => minDistAux_cap nrm g tf1 tf2 eps c1 c2 cnt alpha hcnt,
   fun c1 c2 cnt => minDistAux_absorb nrm g tf1 tf2 eps hn hg heps c1 c2 cnt,
   fun c1 c2 cnt alpha halpha =>
     minDistAux_ge nrm g tf1 tf2 eps hn hg heps (11 - cnt) cnt (le_refl _)
       c1 c2 alpha halpha⟩

/-- Witness for claim C8 at concrete inputs: the taxicab endpoint norm, the
constantly-zero oracle, `eps = 1/1000`, and concrete 2-D curves. -/
theorem minDist_depth_cap_and_sentinel_propagation_witness :
    minDistAux (fun v => |v.1| + |v.2|) (fun _ _ => 0) 1 1 (1 / 1000)
        [[0, 1], [0, 0]] [[5, 6], [7, 8]] 10 none = -1 ∧
      minDistAux (fun v => |v.1| + |v.2|) (fun _ _ => 0) 1 1 (1 / 1000)
        [[0, 1], [0, 0]] [[5, 6], [7, 8]] 0 (some (-1)) = -1 := by
  have hn : ∀ v : ℚ × ℚ, 0 ≤ |v.1| + |v.2| :=
    fun v => add_nonneg (abs_nonneg _) (abs_nonneg _)
  have hg : ∀ p q : List (List ℚ), (0 : ℚ) ≤ 0 := fun _ _ => le_refl 0
  have heps : (1 : ℚ) / 1000 ≤ 1 := by norm_num
  have h := minDist_depth_cap_and_sentinel_propagation
    (fun v => |v.1| + |v.2|) (fun _ _ => 0) 1 1 (1 / 1000) hn hg heps
  exact ⟨h.1 _ _ 10 none (by norm_num), h.2.1 _ _ 0⟩

end BezierSpec
